import Mathlib

/-!
Verification of the `simulation-methods` notebooks.

Shallow embedding of the repository's sampling and estimation code:

* `monte-carlo.ipynb` — the discrete samplers `sampleX`, `sampleY`, the
  confidence-interval computation `1.96 * np.std(sample) / np.sqrt(n)`
  (`confX`/`confY` and the estimation-error search loop).
* `accept-reject-method.ipynb` — `exponentielle`, `abs_norm`'s acceptance
  test, the rejection samplers `va` and `va_boule`, the Box-Muller
  transform `gaussian2`, and the broken `gaussian_binomial_density`.
* the basic-laws notebook — the discrete sampler `density` and the random
  group splitter `sous_groupes`.

Uniform draws are modelled as explicit inputs (lists or streams of
rational/real numbers in `[0,1)`); machine floats are modelled as exact
rationals or reals; Python run-time failures (unbound locals, list index
out of range) are modelled with `Option`/`Except`.
-/

namespace SimMethods

/-- `sampleX` from `monte-carlo.ipynb` (one draw): on a uniform draw `u`,
`if u <= 1/3: -1 elif u <= 1/2: 0 else: 1`. -/
def sampleX (u : ℚ) : ℤ :=
  if u ≤ 1/3 then -1 else if u ≤ 1/2 then 0 else 1

/-- `sampleY` from `monte-carlo.ipynb` (one draw):
`if u <= 1/60: -1 elif u <= 1/60 + 4/5: 0 else: 1`. -/
def sampleY (u : ℚ) : ℤ :=
  if u ≤ 1/60 then -1 else if u ≤ 1/60 + 4/5 then 0 else 1

/-- `density` from the basic-laws notebook, with the draw `k` made explicit:
`if k <= 1/4: 0.5 elif 1/4 <= k <= 3/8: 1 elif 3/8 <= k <= 1/2: 1.5 else: 2`. -/
def density (k : ℚ) : ℚ :=
  if k ≤ 1/4 then 1/2
  else if 1/4 ≤ k ∧ k ≤ 3/8 then 1
  else if 3/8 ≤ k ∧ k ≤ 1/2 then 3/2
  else 2

/-- The common shape of the three hard-coded `if/elif/else` chains above:
walk a list of (cumulative upper bound, outcome) pairs and return the first
outcome whose bound is `≥ u`, falling back to the `else`-branch outcome.
`sampleX`, `sampleY` and `density` are proved below to be instances. -/
def cumulWalk {α : Type} : List (ℚ × α) → α → ℚ → α
  | [], d, _ => d
  | (c, v) :: rest, d, u => if u ≤ c then v else cumulWalk rest d u

theorem sampleX_eq_neg_one_iff (u : ℚ) : sampleX u = -1 ↔ u ≤ 1/3 := by
  unfold sampleX
  split_ifs with h1 h2
  · exact ⟨fun _ => h1, fun _ => rfl⟩
  · exact ⟨fun h => absurd h (by decide), fun h => (h1 h).elim⟩
  · exact ⟨fun h => absurd h (by decide), fun h => (h1 h).elim⟩

theorem sampleX_eq_zero_iff (u : ℚ) : sampleX u = 0 ↔ 1/3 < u ∧ u ≤ 1/2 := by
  unfold sampleX
  split_ifs with h1 h2
  · exact ⟨fun h => absurd h (by decide), fun h => absurd h1 (not_le.mpr h.1)⟩
  · exact ⟨fun _ => ⟨not_le.mp h1, h2⟩, fun _ => rfl⟩
  · exact ⟨fun h => absurd h (by decide), fun h => (h2 h.2).elim⟩

theorem sampleX_eq_one_iff (u : ℚ) : sampleX u = 1 ↔ 1/2 < u := by
  unfold sampleX
  split_ifs with h1 h2
  · refine ⟨fun h => absurd h (by decide), fun h => absurd h1 ?_⟩
    exact not_le.mpr (lt_trans (by norm_num) h)
  · exact ⟨fun h => absurd h (by decide), fun h => absurd h2 (not_le.mpr h)⟩
  · exact ⟨fun _ => not_le.mp h2, fun _ => rfl⟩

/-- C3: `sampleX` realises the worked example `P(X=-1)=1/3, P(X=0)=1/6,
P(X=1)=1/2`: it returns `-1` exactly when `u ≤ 1/3`, `0` exactly when
`1/3 < u ≤ 1/2`, `1` exactly when `1/2 < u`; on the draw space `[0,1)` the
preimages of the three outcomes are the intervals `[0,1/3]`, `(1/3,1/2]`
and `(1/2,1)`, of lengths `1/3`, `1/6` and `1/2`, and the distribution's
theoretical mean weighted by those lengths is `E[X] = 1/2 - 1/3 = 1/6`. -/
theorem sampleX_realises_worked_example :
    (∀ u : ℚ, (sampleX u = -1 ↔ u ≤ 1/3) ∧
      (sampleX u = 0 ↔ 1/3 < u ∧ u ≤ 1/2) ∧ (sampleX u = 1 ↔ 1/2 < u)) ∧
    (Set.preimage sampleX {-1} ∩ Set.Ico (0:ℚ) 1 = Set.Icc 0 (1/3) ∧
      Set.preimage sampleX {0} ∩ Set.Ico (0:ℚ) 1 = Set.Ioc (1/3) (1/2) ∧
      Set.preimage sampleX {1} ∩ Set.Ico (0:ℚ) 1 = Set.Ioo (1/2) 1) ∧
    ((1/3 : ℚ) - 0 = 1/3 ∧ (1/2 : ℚ) - 1/3 = 1/6 ∧ (1 : ℚ) - 1/2 = 1/2) ∧
    (-1 : ℚ) * (1/3 - 0) + 0 * (1/2 - 1/3) + 1 * (1 - 1/2) = 1/6 := by
  refine ⟨fun u => ⟨sampleX_eq_neg_one_iff u, sampleX_eq_zero_iff u,
    sampleX_eq_one_iff u⟩, ⟨?_, ?_, ?_⟩, by norm_num, by norm_num⟩
  · ext u
    simp only [Set.mem_inter_iff, Set.mem_preimage, Set.mem_singleton_iff,
      Set.mem_Ico, Set.mem_Icc, sampleX_eq_neg_one_iff]
    constructor
    · rintro ⟨h, h0, _⟩
      exact ⟨h0, h⟩
    · rintro ⟨h0, h⟩
      exact ⟨h, h0, by linarith⟩
  · ext u
    simp only [Set.mem_inter_iff, Set.mem_preimage, Set.mem_singleton_iff,
      Set.mem_Ico, Set.mem_Ioc, sampleX_eq_zero_iff]
    constructor
    · rintro ⟨h, _, _⟩
      exact h
    · rintro ⟨h1, h2⟩
      exact ⟨⟨h1, h2⟩, by linarith, by linarith⟩
  · ext u
    simp only [Set.mem_inter_iff, Set.mem_preimage, Set.mem_singleton_iff,
      Set.mem_Ico, Set.mem_Ioo, sampleX_eq_one_iff]
    constructor
    · rintro ⟨h, _, hu⟩
      exact ⟨h, hu⟩
    · rintro ⟨h1, h2⟩
      exact ⟨h1, by linarith, h2⟩

/-- C4: each discrete sampler is a total function returning exactly one of
its listed outcomes (no gaps, no overlaps), and a draw equal to a cumulative
breakpoint is assigned upper-bound inclusively, to the earlier outcome. -/
theorem discrete_samplers_total_upper_inclusive :
    (∀ u : ℚ, sampleX u = -1 ∨ sampleX u = 0 ∨ sampleX u = 1) ∧
    (∀ u : ℚ, sampleY u = -1 ∨ sampleY u = 0 ∨ sampleY u = 1) ∧
    (∀ u : ℚ, density u = 1/2 ∨ density u = 1 ∨ density u = 3/2 ∨ density u = 2) ∧
    (sampleX (1/3) = -1 ∧ sampleX (1/2) = 0 ∧
      sampleY (1/60) = -1 ∧ sampleY (49/60) = 0 ∧
      density (1/4) = 1/2 ∧ density (3/8) = 1 ∧ density (1/2) = 3/2) := by
  refine ⟨fun u => ?_, fun u => ?_, fun u => ?_,
    by norm_num [sampleX, sampleY, density]⟩
  · unfold sampleX; split_ifs <;> simp
  · unfold sampleY; split_ifs <;> simp
  · unfold density; split_ifs <;> simp

/-- C5 counterexample: the cumulative-threshold walk the code's samplers
implement does not fail on a malformed distribution.  The two-outcome
distribution with probabilities `3/2` and `-1/2` (one negative, sum `1`,
cumulative bound `3/2`) still yields the numeric outcome `5` on the draw
`3/10`: no `InvalidDistribution` error exists. -/
theorem cumulWalk_no_invalid_distribution_error :
    ((3/2 : ℚ) + (-1/2) = 1 ∧ (-1/2 : ℚ) < 0) ∧
    cumulWalk [((3:ℚ)/2, (5:ℚ))] 7 (3/10) = 5 := by
  constructor
  · norm_num
  · show (if (3/10 : ℚ) ≤ 3/2 then (5:ℚ) else cumulWalk [] 7 (3/10)) = 5
    norm_num

/-- C5 amended: the discrete samplers perform no validation of their
(hard-coded) probabilities and cannot fail: `sampleX`, `sampleY` and
`density` are instances of the total cumulative-threshold walk, which
returns one of the listed outcomes (or the default) for every draw and
every supplied threshold list, well-formed or not. -/
theorem discrete_samplers_never_fail :
    (∀ u : ℚ, sampleX u = cumulWalk [(1/3, -1), (1/2, 0)] 1 u) ∧
    (∀ u : ℚ, sampleY u = cumulWalk [(1/60, -1), (49/60, 0)] 1 u) ∧
    (∀ u : ℚ, density u = cumulWalk [(1/4, 1/2), (3/8, 1), (1/2, 3/2)] 2 u) ∧
    (∀ (dist : List (ℚ × ℚ)) (d u : ℚ),
      cumulWalk dist d u = d ∨ cumulWalk dist d u ∈ dist.map Prod.snd) := by
  refine ⟨fun u => rfl, fun u => ?_, fun u => ?_, ?_⟩
  · show sampleY u = if u ≤ 1/60 then -1 else if u ≤ 49/60 then (0:ℤ) else 1
    unfold sampleY
    have h : (1/60 + 4/5 : ℚ) = 49/60 := by norm_num
    rw [h]
  · show density u =
      if u ≤ 1/4 then 1/2 else if u ≤ 3/8 then 1 else if u ≤ 1/2 then 3/2 else (2:ℚ)
    unfold density
    rcases le_or_lt u (1/4) with h1 | h1
    · rw [if_pos h1, if_pos h1]
    · rw [if_neg (not_le.mpr h1), if_neg (not_le.mpr h1)]
      rcases le_or_lt u (3/8) with h2 | h2
      · rw [if_pos ⟨le_of_lt h1, h2⟩, if_pos h2]
      · rw [if_neg (fun hc => absurd hc.2 (not_le.mpr h2)),
          if_neg (not_le.mpr h2)]
        rcases le_or_lt u (1/2) with h3 | h3
        · rw [if_pos ⟨by linarith, h3⟩, if_pos h3]
        · rw [if_neg (fun hc => absurd hc.2 (not_le.mpr h3)),
            if_neg (not_le.mpr h3)]
  · intro dist d u
    induction dist with
    | nil => exact Or.inl rfl
    | cons hd tl ih =>
      obtain ⟨c, v⟩ := hd
      by_cases h : u ≤ c
      · right
        simp [cumulWalk, h]
      · rcases ih with h' | h'
        · left
          simpa [cumulWalk, h] using h'
        · right
          simp only [cumulWalk, if_neg h, List.map_cons, List.mem_cons]
          exact Or.inr h'

/-- `np.mean` of a sample: undefined (NaN) on the empty sample, modelled
as `none`. -/
noncomputable def sampleMean (L : List ℝ) : Option ℝ :=
  if L.length = 0 then none else some (L.sum / L.length)

/-- `np.std` of a sample (population standard deviation, `ddof = 0`):
square root of the mean squared deviation from the sample mean. -/
noncomputable def npStd (L : List ℝ) : Option ℝ :=
  (sampleMean L).map fun m => Real.sqrt ((L.map fun x => (x - m) ^ 2).sum / L.length)

/-- One entry of `confX`/`confY` in `monte-carlo.ipynb`:
`1.96 * np.std(sample) / np.sqrt(len(sample))`. -/
noncomputable def halfWidth (L : List ℝ) : Option ℝ :=
  (npStd L).map fun s => 1.96 * s / Real.sqrt L.length

/-- C6 counterexample: at sample size `n = 1` the confidence-interval
computation does not fail: on the one-draw sample `[5]` it silently
returns the degenerate half-width `0` (the population standard deviation
of a single draw is `0`), not an `InvalidSampleSize` error. -/
theorem halfWidth_singleton_returns_zero : halfWidth [(5 : ℝ)] = some 0 := by
  simp only [halfWidth, npStd, sampleMean, List.length_cons, List.length_nil,
    List.sum_cons, List.sum_nil, List.map_cons, List.map_nil, Option.map_some]
  norm_num

/-- C6 amended: the confidence-interval computation performs no sample-size
validation and has no `InvalidSampleSize` error: at `n = 0` the statistics
are undefined (numpy's NaN, modelled `none`); at `n = 1` it silently
returns the degenerate half-width `0` for every draw. -/
theorem halfWidth_no_sample_size_error :
    halfWidth ([] : List ℝ) = none ∧ (∀ x : ℝ, halfWidth [x] = some 0) := by
  constructor
  · rfl
  · intro x
    simp only [halfWidth, npStd, sampleMean, List.length_cons, List.length_nil,
      List.sum_cons, List.sum_nil, List.map_cons, List.map_nil, Option.map_some]
    norm_num

/-- The half-width of the estimation-error search in `monte-carlo.ipynb`,
`1.96 * np.std(X) / np.sqrt(len(X))`, as a function of the empirical
standard deviation `s` and the sample size `n`. -/
noncomputable def halfWidthFn (s : ℝ) (n : ℕ) : ℝ := 1.96 * s / Real.sqrt n

/-- C8 counterexample: for the empirical standard deviation `σ = 0`
(attainable: a sample of identical draws) and `n₁ = 1 < n₂ = 2`, the
half-width is `0` at both sizes, so it is not strictly decreasing in `n`. -/
theorem halfWidthFn_not_strictly_decreasing :
    (1 : ℕ) ≤ 1 ∧ (1 : ℕ) < 2 ∧ ¬ halfWidthFn 0 2 < halfWidthFn 0 1 := by
  refine ⟨le_refl 1, by norm_num, ?_⟩
  simp [halfWidthFn]

/-- C8 amended: for every fixed positive empirical standard deviation the
half-width `1.96·σ/√n` is strictly decreasing in the sample size `n` (for
`σ = 0` it is constantly `0`). -/
theorem halfWidthFn_strict_anti (s : ℝ) (hs : 0 < s) (n1 n2 : ℕ)
    (hn1 : 1 ≤ n1) (h : n1 < n2) : halfWidthFn s n2 < halfWidthFn s n1 := by
  unfold halfWidthFn
  have h0 : (0 : ℝ) < (n1 : ℝ) := by exact_mod_cast Nat.lt_of_lt_of_le Nat.zero_lt_one hn1
  have h1 : (0 : ℝ) < Real.sqrt n1 := Real.sqrt_pos.mpr h0
  have h2 : Real.sqrt n1 < Real.sqrt n2 :=
    Real.sqrt_lt_sqrt (Nat.cast_nonneg n1) (by exact_mod_cast h)
  have h3 : (0 : ℝ) < 1.96 * s := by nlinarith
  exact div_lt_div_of_pos_left h3 h1 h2

/-- Witness for `halfWidthFn_strict_anti` at `σ = 1`, `n₁ = 1`, `n₂ = 4`. -/
theorem halfWidthFn_strict_anti_witness : halfWidthFn 1 4 < halfWidthFn 1 1 :=
  halfWidthFn_strict_anti 1 (by norm_num) 1 4 (le_refl 1) (by norm_num)

/-- `va` from `accept-reject-method.ipynb`, producing one returned point:
draw a candidate `(2*u1 - 1, 2*u2 - 1)` from a pair of uniforms, then
(`while u1 * u1 + u2 * u2 <= 1:`) redraw as long as the candidate satisfies
`c1*c1 + c2*c2 ≤ 1`, returning the first candidate that does not; `none`
if the supplied draws run out. -/
def vaLoop : List (ℚ × ℚ) → Option (ℚ × ℚ)
  | [] => none
  | (u1, u2) :: rest =>
    let c1 := 2 * u1 - 1
    let c2 := 2 * u2 - 1
    if c1 * c1 + c2 * c2 ≤ 1 then vaLoop rest else some (c1, c2)

/-- C2: on the uniform draws `(0.5, 0.5)` then `(0.99, 0.99)`, `va` redraws
the first candidate `(0, 0)` — which lies inside the unit disk — and
returns `(0.98, 0.98)`, whose squared norm `1.9208` exceeds `1`: the
accept/redraw test is inverted, so every returned point lies outside the
unit disk, contrary to the claim (and to the notebook's own algorithm
description `while u1^2 + u2^2 > 1`). -/
theorem va_returns_point_outside_unit_disk :
    vaLoop [(1/2, 1/2), (99/100, 99/100)] = some (49/50, 49/50) ∧
    ¬ ((49/50 : ℚ) * (49/50) + (49/50) * (49/50) ≤ 1) := by
  constructor
  · show (if (2 * (1/2 : ℚ) - 1) * (2 * (1/2) - 1) + (2 * (1/2) - 1) * (2 * (1/2) - 1) ≤ 1
        then vaLoop [(99/100, 99/100)] else some (2 * (1/2) - 1, 2 * (1/2) - 1)) =
        some (49/50, 49/50)
    rw [if_pos (by norm_num)]
    show (if (2 * (99/100 : ℚ) - 1) * (2 * (99/100) - 1) +
          (2 * (99/100) - 1) * (2 * (99/100) - 1) ≤ 1
        then vaLoop [] else some (2 * (99/100) - 1, 2 * (99/100) - 1)) =
        some (49/50, 49/50)
    rw [if_neg (by norm_num)]
    norm_num
  · norm_num

/-- A read of a Python local variable: `none` models a name not yet
assigned, whose read raises `UnboundLocalError`. -/
def readLocal (v : Option ℝ) : Except String ℝ :=
  match v with
  | none => Except.error "UnboundLocalError"
  | some x => Except.ok x

/-- `gaussian_binomial_density` from `accept-reject-method.ipynb`: its first
statement `sigma1 = np.linalg.norm(sigma1)` reads the local `sigma1` on its
own defining line (and the next reads `sigma2` likewise), so the reads hit
unassigned locals.  The matrix argument is modelled as an index function;
`np.linalg.norm` of a scalar is its absolute value. -/
noncomputable def gaussian_binomial_density (z1 z2 : ℝ) (sigma : ℕ → ℕ → ℝ) :
    Except String ℝ := do
  let s1 ← readLocal none
  let sigma1 := |s1|
  let s2 ← readLocal none
  let sigma2 := |s2|
  let rho := (sigma 1 1 * sigma 1 2 + sigma 2 1 * sigma 2 2) / (sigma1 * sigma2)
  let z := z1 ^ 2 / sigma1 ^ 2 + z2 ^ 2 / sigma2 ^ 2 -
    2 * rho * z1 * z2 / (sigma1 * sigma2)
  return 1 / (2 * Real.pi * sigma1 * sigma2 * Real.sqrt (1 - rho ^ 2)) *
    Real.exp (-z / (2 * (1 - rho ^ 2)))

/-- C9: every call of `gaussian_binomial_density` fails with
`UnboundLocalError` — `sigma1` is read before any assignment to it — and
no input produces a numeric result. -/
theorem gaussian_binomial_density_always_fails (z1 z2 : ℝ) (sigma : ℕ → ℕ → ℝ) :
    gaussian_binomial_density z1 z2 sigma = Except.error "UnboundLocalError" := rfl

/-- `exponentielle(lam, n)` from both notebooks, applied to explicit
uniform draws `us`: each draw `u` yields `-np.log(1 - u) / lam`. -/
noncomputable def exponentielle (lam : ℝ) (us : List ℝ) : List ℝ :=
  us.map fun u => -Real.log (1 - u) / lam

/-- The target density computed inside `abs_norm`:
`f = 2 / np.sqrt(2 * np.pi) * np.exp(-g**2 / 2)`. -/
noncomputable def fTarget (x : ℝ) : ℝ :=
  2 / Real.sqrt (2 * Real.pi) * Real.exp (-x ^ 2 / 2)

/-- `c = np.sqrt(2 * np.exp(1) / np.pi)` from `abs_norm`. -/
noncomputable def cAbs : ℝ := Real.sqrt (2 * Real.exp 1 / Real.pi)

/-- The acceptance test exactly as `abs_norm` computes it:
`h = f / (c * g)` where `g` is the sampled value, accept iff `u <= h`. -/
def absNormAcceptCode (u g : ℝ) : Prop := u ≤ fTarget g / (cAbs * g)

/-- The acceptance test the claim (and the accept-reject method) states:
`u ≤ f(x) / (c · g(x))` with `g(x) = e^(-x)` the exponential(1) proposal
density evaluated at the candidate. -/
def absNormAcceptClaim (u g : ℝ) : Prop := u ≤ fTarget g / (cAbs * Real.exp (-g))

theorem cAbs_pos : 0 < cAbs := by
  unfold cAbs
  apply Real.sqrt_pos.mpr
  have h1 : (0:ℝ) < Real.exp 1 := Real.exp_pos 1
  have h2 : (0:ℝ) < Real.pi := Real.pi_pos
  positivity

theorem cAbs_lt_two : cAbs < 2 := by
  unfold cAbs
  rw [Real.sqrt_lt' (by norm_num)]
  have h1 : Real.exp 1 < 2.7182818286 := Real.exp_one_lt_d9
  have h2 : (3.14 : ℝ) < Real.pi := Real.pi_gt_d2
  rw [div_lt_iff₀ (by linarith)]
  nlinarith

theorem cAbs_gt : (1.31 : ℝ) < cAbs := by
  unfold cAbs
  have h1 : (2.7182818283 : ℝ) < Real.exp 1 := Real.exp_one_gt_d9
  have h2 : Real.pi < 3.15 := Real.pi_lt_d2
  have h3 : (0:ℝ) < Real.pi := Real.pi_pos
  rw [Real.lt_sqrt (by positivity), lt_div_iff₀ h3]
  nlinarith

theorem fTarget_tenth_bounds : (0.75 : ℝ) ≤ fTarget (1/10) ∧ fTarget (1/10) ≤ 0.8 := by
  unfold fTarget
  have hπl : (3.14 : ℝ) < Real.pi := Real.pi_gt_d2
  have hπu : Real.pi < 3.15 := Real.pi_lt_d2
  have hsl : (2.5 : ℝ) < Real.sqrt (2 * Real.pi) := by
    rw [Real.lt_sqrt (by linarith)]
    nlinarith
  have hsu : Real.sqrt (2 * Real.pi) < 2.51 := by
    rw [Real.sqrt_lt' (by norm_num)]
    nlinarith
  have harg : (-(1/10 : ℝ) ^ 2 / 2) = -1/200 := by norm_num
  rw [harg]
  have hel : (199/200 : ℝ) ≤ Real.exp (-1/200) := by
    have := Real.add_one_le_exp (-1/200 : ℝ)
    linarith
  have heu : Real.exp (-1/200 : ℝ) ≤ 1 := by
    have h := Real.exp_le_exp.mpr (show (-1/200 : ℝ) ≤ 0 by norm_num)
    rwa [Real.exp_zero] at h
  have hspos : (0:ℝ) < Real.sqrt (2 * Real.pi) := by linarith
  constructor
  · rw [div_mul_eq_mul_div, le_div_iff₀ hspos]
    nlinarith
  · rw [div_mul_eq_mul_div, div_le_iff₀ hspos]
    nlinarith

/-- C1: the acceptance test of `abs_norm` is not the accept-reject test the
claim states.  `abs_norm` divides by the sampled value (`h = f / (c * g)`)
instead of the proposal density `e^(-g)`: on the candidate `x = 0.1` with
uniform `u = 0.9` the code accepts (its ratio is about `6.04`), while the
claimed test `u ≤ f(x)/(c·e^(-x))` rejects (that ratio is about `0.667`). -/
theorem abs_norm_acceptance_test_differs :
    absNormAcceptCode (9/10) (1/10) ∧ ¬ absNormAcceptClaim (9/10) (1/10) := by
  obtain ⟨hfl, hfu⟩ := fTarget_tenth_bounds
  constructor
  · unfold absNormAcceptCode
    have hpos : (0:ℝ) < cAbs * (1/10) := by
      have := cAbs_pos
      positivity
    rw [le_div_iff₀ hpos]
    have := cAbs_lt_two
    nlinarith
  · unfold absNormAcceptClaim
    rw [not_le]
    have hexp1 : (9/10 : ℝ) ≤ Real.exp (-(1/10)) := by
      have := Real.add_one_le_exp (-(1/10) : ℝ)
      linarith
    have hexp2 : Real.exp (-(1/10) : ℝ) ≤ 1 := by
      have h := Real.exp_le_exp.mpr (show (-(1/10) : ℝ) ≤ 0 by norm_num)
      rwa [Real.exp_zero] at h
    have hexppos : (0:ℝ) < Real.exp (-(1/10)) := Real.exp_pos _
    have hc := cAbs_gt
    have hcpos := cAbs_pos
    have hpos : (0:ℝ) < cAbs * Real.exp (-(1/10)) := by positivity
    rw [div_lt_iff₀ hpos]
    have hprod : (1.31 : ℝ) * (9/10) ≤ cAbs * Real.exp (-(1/10)) :=
      mul_le_mul (le_of_lt hc) hexp1 (by norm_num) (by linarith)
    nlinarith

/-- `gaussian2(n)` from `accept-reject-method.ipynb`, with the two streams
of uniform draws made explicit: `r = np.array(exponentielle(0.5, n))`,
`u = 2 * np.pi * np.random.random(n)`, returning
`(np.sqrt(r) * np.cos(u), np.sqrt(r) * np.sin(u))`. -/
noncomputable def gaussian2 (us vs : List ℝ) : List ℝ × List ℝ :=
  let r := exponentielle (1/2) us
  let theta := vs.map fun v => 2 * Real.pi * v
  (List.zipWith (fun ri ti => Real.sqrt ri * Real.cos ti) r theta,
    List.zipWith (fun ri ti => Real.sqrt ri * Real.sin ti) r theta)

/-- C7: for uniform inputs `u_i, v_i ∈ [0,1)`, `gaussian2` returns exactly
the sequences `Z1_i = √r_i·cos θ_i` and `Z2_i = √r_i·sin θ_i`, where
`r_i = -ln(1-u_i)/(1/2)` is the inverse-CDF draw of an exponential with
rate `1/2` (hence `r_i ≥ 0`) and `θ_i = 2π·v_i` lies in `[0, 2π)`. -/
theorem gaussian2_box_muller (us vs : List ℝ)
    (hu : ∀ u ∈ us, 0 ≤ u ∧ u < 1) (hv : ∀ v ∈ vs, 0 ≤ v ∧ v < 1) :
    (gaussian2 us vs).1 = List.zipWith
      (fun u v => Real.sqrt (-Real.log (1 - u) / (1/2)) *
        Real.cos (2 * Real.pi * v)) us vs ∧
    (gaussian2 us vs).2 = List.zipWith
      (fun u v => Real.sqrt (-Real.log (1 - u) / (1/2)) *
        Real.sin (2 * Real.pi * v)) us vs ∧
    (∀ u ∈ us, 0 ≤ -Real.log (1 - u) / (1/2)) ∧
    (∀ v ∈ vs, 0 ≤ 2 * Real.pi * v ∧ 2 * Real.pi * v < 2 * Real.pi) := by
  refine ⟨?_, ?_, ?_, ?_⟩
  · show List.zipWith _ (us.map fun u => -Real.log (1 - u) / (1/2))
        (vs.map fun v => 2 * Real.pi * v) = _
    rw [List.zipWith_map]
  · show List.zipWith _ (us.map fun u => -Real.log (1 - u) / (1/2))
        (vs.map fun v => 2 * Real.pi * v) = _
    rw [List.zipWith_map]
  · intro u hmem
    obtain ⟨h0, h1⟩ := hu u hmem
    have hlog : Real.log (1 - u) ≤ 0 := Real.log_nonpos (by linarith) (by linarith)
    have : 0 ≤ -Real.log (1 - u) := by linarith
    positivity
  · intro v hmem
    obtain ⟨h0, h1⟩ := hv v hmem
    have hπ : (0:ℝ) < Real.pi := Real.pi_pos
    constructor
    · positivity
    · have h := mul_lt_mul_of_pos_left h1 (show (0:ℝ) < 2 * Real.pi by linarith)
      rwa [mul_one] at h

/-- Witness for `gaussian2_box_muller` on the one-draw streams
`us = [1/2]`, `vs = [1/2]`. -/
theorem gaussian2_box_muller_witness :
    (gaussian2 [(1:ℝ)/2] [(1:ℝ)/2]).1 = List.zipWith
      (fun u v => Real.sqrt (-Real.log (1 - u) / (1/2)) *
        Real.cos (2 * Real.pi * v)) [(1:ℝ)/2] [(1:ℝ)/2] ∧
    (gaussian2 [(1:ℝ)/2] [(1:ℝ)/2]).2 = List.zipWith
      (fun u v => Real.sqrt (-Real.log (1 - u) / (1/2)) *
        Real.sin (2 * Real.pi * v)) [(1:ℝ)/2] [(1:ℝ)/2] ∧
    (∀ u ∈ [(1:ℝ)/2], 0 ≤ -Real.log (1 - u) / (1/2)) ∧
    (∀ v ∈ [(1:ℝ)/2], 0 ≤ 2 * Real.pi * v ∧ 2 * Real.pi * v < 2 * Real.pi) :=
  gaussian2_box_muller [(1:ℝ)/2] [(1:ℝ)/2]
    (by intro u hmem; rw [List.mem_singleton] at hmem; subst hmem; norm_num)
    (by intro v hmem; rw [List.mem_singleton] at hmem; subst hmem; norm_num)

/-- `int(np.random.random() * len(U))` from `sous_groupes`: truncation of
`u * len` toward zero; the draw is nonnegative, so this is the floor. -/
def drawIndex (u : ℚ) (len : ℕ) : ℕ := (⌊u * (len : ℚ)⌋).toNat

theorem drawIndex_lt (u : ℚ) (len : ℕ) (_h0 : 0 ≤ u) (h1 : u < 1)
    (hlen : 0 < len) : drawIndex u len < len := by
  unfold drawIndex
  have hfl : ⌊u * (len : ℚ)⌋ < (len : ℤ) := by
    rw [Int.floor_lt]
    push_cast
    have h := mul_lt_mul_of_pos_right h1 (show (0:ℚ) < (len:ℚ) by exact_mod_cast hlen)
    linarith
  omega

/-- The inner `while` loop of `sous_groupes`: while `len(tmp) < quota`,
draw `x = int(np.random.random() * len(U))`, append `U[x]` to `tmp` and
pop it from `U`.  `t` indexes the stream `us` of uniform draws; an index
access out of range (Python's `IndexError`, also on an empty pool) yields
`none`. -/
def pullLoop (quota : ℚ) (us : ℕ → ℚ) (t : ℕ) (tmp U : List ℕ) :
    Option (List ℕ × List ℕ × ℕ) :=
  if (tmp.length : ℚ) < quota then
    if hU : U.length = 0 then none
    else if hx : drawIndex (us t) U.length < U.length then
      pullLoop quota us (t + 1) (tmp ++ [U[drawIndex (us t) U.length]])
        (U.eraseIdx (drawIndex (us t) U.length))
    else none
  else some (tmp, U, t)
termination_by U.length
decreasing_by
  have h := List.length_eraseIdx_add_one hx
  omega

/-- The outer `for i in range(p)` loop of `sous_groupes`: build groups one
after the other, each by a run of the inner loop from an empty `tmp`. -/
def groupsLoop (quota : ℚ) (us : ℕ → ℚ) :
    ℕ → ℕ → List (List ℕ) → List ℕ → Option (List (List ℕ) × List ℕ × ℕ)
  | 0, t, L, U => some (L, U, t)
  | i + 1, t, L, U =>
    match pullLoop quota us t [] U with
    | none => none
    | some (tmp, U2, t2) => groupsLoop quota us i t2 (L ++ [tmp]) U2

/-- `L[-1].extend(U)` on the list of groups (a no-op on an empty list,
which `sous_groupes` never produces for `p ≥ 1`). -/
def appendLast : List (List ℕ) → List ℕ → List (List ℕ)
  | [], _ => []
  | [g], u => [g ++ u]
  | g :: gs, u => g :: appendLast gs u

/-- `sous_groupes(n, p)` from the basic-laws notebook, with the uniform
draw stream `us` explicit: if `p` divides `n`, `p` rounds of the inner
loop with quota `n/p`; otherwise `p` rounds with quota `n/p - 1` followed
by `L[-1].extend(U)` on the leftover pool. -/
def sous_groupes (n p : ℕ) (us : ℕ → ℚ) : Option (List (List ℕ)) :=
  if n % p = 0 then
    (groupsLoop ((n : ℚ) / (p : ℚ)) us p 0 [] (List.range n)).map fun r => r.1
  else
    (groupsLoop ((n : ℚ) / (p : ℚ) - 1) us p 0 [] (List.range n)).map fun r =>
      appendLast r.1 r.2.1

/-- Number of elements one run of the inner loop pulls when started from an
empty `tmp`: `0` if the quota is non-positive, else the quota's ceiling. -/
def pullCount (quota : ℚ) : ℕ := if quota ≤ 0 then 0 else (⌈quota⌉).toNat

theorem pullCount_le {quota : ℚ} {m : ℕ} (h : quota ≤ (m : ℚ)) :
    pullCount quota ≤ m := by
  unfold pullCount
  split_ifs with h0
  · exact Nat.zero_le m
  · have hc : ⌈quota⌉ ≤ (m : ℤ) := Int.ceil_le.mpr (by exact_mod_cast h)
    omega

theorem lt_pullCount {quota : ℚ} {m : ℕ} (h : (m : ℚ) < quota) :
    m + 1 ≤ pullCount quota := by
  unfold pullCount
  have h0 : ¬ quota ≤ 0 := by
    push_neg
    calc (0:ℚ) ≤ (m : ℚ) := by positivity
    _ < quota := h
  rw [if_neg h0]
  have hc : (m : ℤ) < ⌈quota⌉ := Int.lt_ceil.mpr (by exact_mod_cast h)
  omega

theorem multiset_getElem_cons_eraseIdx (U : List ℕ) (x : ℕ) (hx : x < U.length) :
    (↑(U[x] :: U.eraseIdx x) : Multiset ℕ) = ↑U := by
  rw [Multiset.coe_eq_coe]
  exact ((List.perm_cons_erase (List.getElem_mem hx)).trans
    ((List.erase_getElem hx).cons U[x])).symm

/-- What one run of the inner loop does when the pool is large enough:
it succeeds, preserves the elements (as a multiset), and grows `tmp` to
exactly `max tmp.length (pullCount quota)` elements. -/
theorem pullLoop_spec (quota : ℚ) (us : ℕ → ℚ)
    (hus : ∀ s, 0 ≤ us s ∧ us s < 1) :
    ∀ (N : ℕ) (U tmp : List ℕ) (t : ℕ), U.length ≤ N →
    quota ≤ (tmp.length : ℚ) + (U.length : ℚ) →
    ∃ tmp2 U2 t2, pullLoop quota us t tmp U = some (tmp2, U2, t2) ∧
      (↑tmp2 + ↑U2 : Multiset ℕ) = ↑tmp + ↑U ∧
      tmp2.length = max tmp.length (pullCount quota) := by
  intro N
  induction N with
  | zero =>
    intro U tmp t hlen hq
    have hU0 : U.length = 0 := Nat.le_zero.mp hlen
    have hcond : ¬ (tmp.length : ℚ) < quota := by
      rw [hU0] at hq
      push_cast at hq
      push_neg
      linarith
    rw [pullLoop, if_neg hcond]
    refine ⟨tmp, U, t, rfl, rfl, ?_⟩
    have hpc : pullCount quota ≤ tmp.length := pullCount_le (by push_neg at hcond; linarith)
    omega
  | succ N ih =>
    intro U tmp t hlen hq
    by_cases hcond : (tmp.length : ℚ) < quota
    · have hU0 : U.length ≠ 0 := by
        intro h0
        rw [h0] at hq
        push_cast at hq
        linarith
      have hx : drawIndex (us t) U.length < U.length :=
        drawIndex_lt _ _ (hus t).1 (hus t).2 (Nat.pos_of_ne_zero hU0)
      rw [pullLoop, if_pos hcond, dif_neg hU0, dif_pos hx]
      have hUe : (U.eraseIdx (drawIndex (us t) U.length)).length + 1 = U.length :=
        List.length_eraseIdx_add_one hx
      have hlen2 : (U.eraseIdx (drawIndex (us t) U.length)).length ≤ N := by omega
      have htlen : (tmp ++ [U[drawIndex (us t) U.length]]).length = tmp.length + 1 := by
        simp
      have hq2 : quota ≤ ((tmp ++ [U[drawIndex (us t) U.length]]).length : ℚ) +
          ((U.eraseIdx (drawIndex (us t) U.length)).length : ℚ) := by
        rw [htlen]
        push_cast
        have : ((U.eraseIdx (drawIndex (us t) U.length)).length : ℚ) + 1 =
            (U.length : ℚ) := by exact_mod_cast congrArg (Nat.cast : ℕ → ℚ) hUe
        linarith
      obtain ⟨tmp2, U2, t2, heq, hms, hmax⟩ := ih _ _ (t + 1) hlen2 hq2
      refine ⟨tmp2, U2, t2, heq, ?_, ?_⟩
      · rw [hms]
        have h1 : (↑(tmp ++ [U[drawIndex (us t) U.length]]) : Multiset ℕ) =
            ↑tmp + ↑[U[drawIndex (us t) U.length]] := (Multiset.coe_add _ _).symm
        rw [h1, add_assoc]
        congr 1
        have h2 : (↑[U[drawIndex (us t) U.length]] : Multiset ℕ) +
            ↑(U.eraseIdx (drawIndex (us t) U.length)) =
            ↑(U[drawIndex (us t) U.length] :: U.eraseIdx (drawIndex (us t) U.length)) :=
          Multiset.coe_add _ _
        rw [h2]
        exact multiset_getElem_cons_eraseIdx U _ hx
      · rw [hmax, htlen]
        have h1 : tmp.length + 1 ≤ pullCount quota := lt_pullCount hcond
        omega
    · rw [pullLoop, if_neg hcond]
      refine ⟨tmp, U, t, rfl, rfl, ?_⟩
      have hpc : pullCount quota ≤ tmp.length := pullCount_le (by push_neg at hcond; linarith)
      omega

/-- What the outer loop does when the pool stays large enough for every
round: it succeeds and appends `i` new groups of `pullCount quota` elements
each, drawn from the pool (multiset conservation). -/
theorem groupsLoop_spec (quota : ℚ) (us : ℕ → ℚ)
    (hus : ∀ s, 0 ≤ us s ∧ us s < 1) :
    ∀ (i t : ℕ) (L : List (List ℕ)) (U : List ℕ),
    (∀ j : ℕ, j < i → quota + (j : ℚ) * (pullCount quota : ℚ) ≤ (U.length : ℚ)) →
    ∃ M U2 t2, groupsLoop quota us i t L U = some (L ++ M, U2, t2) ∧
      M.length = i ∧ (∀ g ∈ M, g.length = pullCount quota) ∧
      (↑M.flatten + ↑U2 : Multiset ℕ) = ↑U := by
  intro i
  induction i with
  | zero =>
    intro t L U _
    exact ⟨[], U, t, by simp [groupsLoop], rfl, by simp, by simp⟩
  | succ i ih =>
    intro t L U hsuff
    have h0 : quota ≤ (U.length : ℚ) := by
      have h := hsuff 0 (Nat.succ_pos i)
      push_cast at h
      linarith
    obtain ⟨tmp2, U2, t2, heq, hms, hmax⟩ :=
      pullLoop_spec quota us hus U.length U [] t (le_refl _) (by simpa using h0)
    have htmp2 : tmp2.length = pullCount quota := by
      rw [hmax]
      simp
    have hcard : tmp2.length + U2.length = U.length := by
      have h := congrArg Multiset.card hms
      simpa using h
    have hsuff2 : ∀ j : ℕ, j < i →
        quota + (j : ℚ) * (pullCount quota : ℚ) ≤ (U2.length : ℚ) := by
      intro j hj
      have h := hsuff (j + 1) (by omega)
      have hc : (tmp2.length : ℚ) + (U2.length : ℚ) = (U.length : ℚ) := by
        exact_mod_cast hcard
      rw [htmp2] at hc
      push_cast at h ⊢
      nlinarith
    obtain ⟨M, U3, t3, heq2, hMlen, hMg, hms2⟩ := ih t2 (L ++ [tmp2]) U2 hsuff2
    refine ⟨tmp2 :: M, U3, t3, ?_, by simp [hMlen], ?_, ?_⟩
    · show groupsLoop quota us (i + 1) t L U = _
      rw [groupsLoop, heq]
      show groupsLoop quota us i t2 (L ++ [tmp2]) U2 = _
      rw [heq2, List.append_assoc]
      rfl
    · intro g hg
      rcases List.mem_cons.mp hg with h | h
      · rw [h]
        exact htmp2
      · exact hMg g h
    · have hfl : (tmp2 :: M).flatten = tmp2 ++ M.flatten := rfl
      rw [hfl]
      have hco : (↑(tmp2 ++ M.flatten) : Multiset ℕ) = ↑tmp2 + ↑M.flatten :=
        (Multiset.coe_add _ _).symm
      rw [hco, add_assoc, hms2]
      simpa using hms

theorem appendLast_length (M : List (List ℕ)) (u : List ℕ) (h : M ≠ []) :
    (appendLast M u).length = M.length := by
  induction M with
  | nil => exact absurd rfl h
  | cons g gs ih =>
    cases gs with
    | nil => rfl
    | cons g2 gs2 =>
      have he : appendLast (g :: g2 :: gs2) u = g :: appendLast (g2 :: gs2) u := rfl
      rw [he, List.length_cons, List.length_cons, ih (by simp)]

theorem appendLast_flatten (M : List (List ℕ)) (u : List ℕ) (h : M ≠ []) :
    (↑(appendLast M u).flatten : Multiset ℕ) = ↑M.flatten + ↑u := by
  induction M with
  | nil => exact absurd rfl h
  | cons g gs ih =>
    cases gs with
    | nil =>
      have h1 : appendLast [g] u = [g ++ u] := rfl
      rw [h1]
      have h2 : ([g ++ u] : List (List ℕ)).flatten = g ++ u := by simp
      have h3 : ([g] : List (List ℕ)).flatten = g := by simp
      rw [h2, h3, ← Multiset.coe_add]
    | cons g2 gs2 =>
      have he : appendLast (g :: g2 :: gs2) u = g :: appendLast (g2 :: gs2) u := rfl
      rw [he]
      have h1 : (↑(g :: appendLast (g2 :: gs2) u).flatten : Multiset ℕ) =
          ↑g + ↑(appendLast (g2 :: gs2) u).flatten := by
        rw [List.flatten_cons, ← Multiset.coe_add]
      have h2 : (↑(g :: g2 :: gs2).flatten : Multiset ℕ) =
          ↑g + ↑(g2 :: gs2).flatten := by
        rw [List.flatten_cons, ← Multiset.coe_add]
      rw [h1, ih (by simp), h2, add_assoc]

theorem flatten_length_const (M : List (List ℕ)) (q : ℕ)
    (h : ∀ g ∈ M, g.length = q) : M.flatten.length = M.length * q := by
  induction M with
  | nil => simp
  | cons g gs ih =>
    rw [List.flatten_cons, List.length_append,
      ih (fun g2 hg2 => h g2 (List.mem_cons_of_mem _ hg2)),
      h g (List.mem_cons_self _ _), List.length_cons]
    ring

theorem pairwise_disjoint_of_flatten_coe (L : List (List ℕ)) (n : ℕ)
    (h : (↑L.flatten : Multiset ℕ) = ↑(List.range n)) :
    List.Pairwise List.Disjoint L := by
  have hperm : L.flatten.Perm (List.range n) := Multiset.coe_eq_coe.mp h
  have hnd : L.flatten.Nodup := hperm.nodup_iff.mpr (List.nodup_range n)
  exact (List.nodup_flatten.mp hnd).2

/-- C10: for `n, p ≥ 1` and uniform draws in `[0,1)`, `sous_groupes(n, p)`
succeeds (every random index is in bounds of the remaining pool) and
returns exactly `p` pairwise-disjoint groups whose elements, taken
together, are exactly `{0, …, n-1}` — each person appears in exactly one
group — and when `p` divides `n` every group has exactly `n / p` people. -/
theorem sous_groupes_partitions (n p : ℕ) (us : ℕ → ℚ) (hn : 1 ≤ n)
    (hp : 1 ≤ p) (hus : ∀ s, 0 ≤ us s ∧ us s < 1) :
    ∃ L, sous_groupes n p us = some L ∧ L.length = p ∧
      List.Pairwise List.Disjoint L ∧
      (↑L.flatten : Multiset ℕ) = ↑(List.range n) ∧
      (p ∣ n → ∀ g ∈ L, g.length = n / p) := by
  have hppos : 0 < p := hp
  have hpQ : (0:ℚ) < (p:ℚ) := by exact_mod_cast hppos
  by_cases hdvd : n % p = 0
  · -- divisible case: quota n/p, each of the p groups gets exactly n/p
    have hpd : p ∣ n := Nat.dvd_of_mod_eq_zero hdvd
    have hqcast : (n : ℚ) / (p : ℚ) = ((n / p : ℕ) : ℚ) :=
      (Nat.cast_div hpd hpQ.ne').symm
    have hqpos : 1 ≤ n / p := (Nat.one_le_div_iff hppos).mpr (Nat.le_of_dvd hn hpd)
    have hpc : pullCount ((n:ℚ) / (p:ℚ)) = n / p := by
      rw [hqcast]
      unfold pullCount
      rw [if_neg (by push_neg; exact_mod_cast Nat.lt_of_lt_of_le Nat.zero_lt_one hqpos),
        Int.ceil_natCast]
      omega
    have hnpq : p * (n / p) = n := Nat.mul_div_cancel' hpd
    have hsuff : ∀ j : ℕ, j < p → (n:ℚ)/(p:ℚ) +
        (j : ℚ) * (pullCount ((n:ℚ)/(p:ℚ)) : ℚ) ≤ ((List.range n).length : ℚ) := by
      intro j hj
      rw [hpc, hqcast, List.length_range]
      have h1 : ((j:ℚ) + 1) * ((n / p : ℕ) : ℚ) ≤ (p:ℚ) * ((n / p : ℕ) : ℚ) := by
        apply mul_le_mul_of_nonneg_right _ (by positivity)
        have : (j:ℚ) + 1 = ((j + 1 : ℕ) : ℚ) := by push_cast; ring
        rw [this]
        exact_mod_cast hj
      have h2 : (p:ℚ) * ((n / p : ℕ) : ℚ) = (n:ℚ) := by exact_mod_cast hnpq
      nlinarith
    obtain ⟨M, U2, t2, heq, hMlen, hMg, hms⟩ :=
      groupsLoop_spec ((n:ℚ)/(p:ℚ)) us hus p 0 [] (List.range n) hsuff
    have hMflat : M.flatten.length = p * (n / p) := by
      rw [flatten_length_const M (n / p) (fun g hg => by rw [hMg g hg, hpc]), hMlen]
    have hcard : M.flatten.length + U2.length = n := by
      have h := congrArg Multiset.card hms
      simpa using h
    have hU2 : U2 = [] := List.length_eq_zero.mp (by omega)
    have hmsfin : (↑M.flatten : Multiset ℕ) = ↑(List.range n) := by
      rw [hU2] at hms
      simpa using hms
    refine ⟨M, ?_, by simpa using hMlen, pairwise_disjoint_of_flatten_coe M n hmsfin,
      hmsfin, fun _ g hg => by rw [hMg g hg, hpc]⟩
    unfold sous_groupes
    rw [if_pos hdvd, heq]
    simp
  · -- non-divisible case: quota n/p - 1, the leftovers extend the last group
    have hnd : ¬ p ∣ n := fun h => hdvd (Nat.dvd_iff_mod_eq_zero.mp h)
    have hmodpos : 0 < n % p := Nat.pos_of_ne_zero hdvd
    have hq_mul_le : ((n / p : ℕ) : ℚ) * (p:ℚ) ≤ (n:ℚ) := by
      exact_mod_cast Nat.div_mul_le_self n p
    have hlt_succ : (n:ℚ) < (((n / p : ℕ) : ℚ) + 1) * (p:ℚ) := by
      have h1 : p * (n / p) + n % p = n := Nat.div_add_mod n p
      have h2 : n % p < p := Nat.mod_lt n hppos
      have h4 : (n / p + 1) * p = p * (n / p) + p := by ring
      have h3 : n < (n / p + 1) * p := by
        rw [h4]
        linarith
      exact_mod_cast h3
    have hpc : pullCount ((n:ℚ)/(p:ℚ) - 1) = n / p := by
      rcases Nat.lt_or_ge n p with hlt | hge
      · have hq0 : n / p = 0 := Nat.div_eq_of_lt hlt
        have hle : (n:ℚ)/(p:ℚ) - 1 ≤ 0 := by
          have : (n:ℚ)/(p:ℚ) ≤ 1 := (div_le_one hpQ).mpr (by exact_mod_cast hlt.le)
          linarith
        unfold pullCount
        rw [if_pos hle, hq0]
      · have hgt : p < n := lt_of_le_of_ne hge (fun h => hnd (h ▸ dvd_refl p))
        have hqpos : 0 < n / p := Nat.div_pos hge hppos
        have hgt1 : (1:ℚ) < (n:ℚ)/(p:ℚ) := (one_lt_div hpQ).mpr (by exact_mod_cast hgt)
        unfold pullCount
        rw [if_neg (by push_neg; linarith)]
        have hceil : ⌈(n:ℚ)/(p:ℚ) - 1⌉ = ((n / p : ℕ) : ℤ) := by
          rw [Int.ceil_eq_iff]
          have hcast : ((((n / p : ℕ) : ℤ)) : ℚ) = ((n / p : ℕ) : ℚ) :=
            Int.cast_natCast _
          rw [hcast]
          have hql : ((n / p : ℕ) : ℚ) < (n:ℚ)/(p:ℚ) := by
            rw [lt_div_iff₀ hpQ]
            have hne : ((n / p : ℕ) : ℚ) * (p:ℚ) ≠ (n:ℚ) := by
              intro habs
              have habs2 : (n / p) * p = n := by exact_mod_cast habs
              refine hnd ⟨n / p, ?_⟩
              rw [mul_comm]
              exact habs2.symm
            exact lt_of_le_of_ne hq_mul_le hne
          have hle2 : (n:ℚ)/(p:ℚ) ≤ ((n / p : ℕ) : ℚ) + 1 := by
            rw [div_le_iff₀ hpQ]
            linarith
          constructor
          · linarith
          · linarith
        rw [hceil]
        omega
    have hsuff : ∀ j : ℕ, j < p → (n:ℚ)/(p:ℚ) - 1 +
        (j : ℚ) * (pullCount ((n:ℚ)/(p:ℚ) - 1) : ℚ) ≤ ((List.range n).length : ℚ) := by
      intro j hj
      rw [hpc, List.length_range]
      have hdivlt : (n:ℚ)/(p:ℚ) < ((n / p : ℕ) : ℚ) + 1 := by
        rw [div_lt_iff₀ hpQ]
        exact hlt_succ
      have h1 : ((j:ℚ) + 1) * ((n / p : ℕ) : ℚ) ≤ (p:ℚ) * ((n / p : ℕ) : ℚ) := by
        apply mul_le_mul_of_nonneg_right _ (by positivity)
        have : (j:ℚ) + 1 = ((j + 1 : ℕ) : ℚ) := by push_cast; ring
        rw [this]
        exact_mod_cast hj
      have h2 : (p:ℚ) * ((n / p : ℕ) : ℚ) ≤ (n:ℚ) := by
        rw [mul_comm]
        exact hq_mul_le
      nlinarith
    obtain ⟨M, U2, t2, heq, hMlen, hMg, hms⟩ :=
      groupsLoop_spec ((n:ℚ)/(p:ℚ) - 1) us hus p 0 [] (List.range n) hsuff
    have hMne : M ≠ [] := by
      intro h
      rw [h] at hMlen
      simp at hMlen
      omega
    have hLlen : (appendLast M U2).length = p := by
      rw [appendLast_length M U2 hMne]
      simpa using hMlen
    have hLflat : (↑(appendLast M U2).flatten : Multiset ℕ) = ↑(List.range n) := by
      rw [appendLast_flatten M U2 hMne, hms]
    refine ⟨appendLast M U2, ?_, hLlen,
      pairwise_disjoint_of_flatten_coe _ n hLflat, hLflat, fun h => absurd h hnd⟩
    unfold sous_groupes
    rw [if_neg hdvd, heq]
    simp

/-- Witness for `sous_groupes_partitions` at `n = 2`, `p = 1` with the
constant-zero draw stream. -/
theorem sous_groupes_partitions_witness :
    ∃ L, sous_groupes 2 1 (fun _ => 0) = some L ∧ L.length = 1 ∧
      List.Pairwise List.Disjoint L ∧
      (↑L.flatten : Multiset ℕ) = ↑(List.range 2) ∧
      (1 ∣ 2 → ∀ g ∈ L, g.length = 2 / 1) :=
  sous_groupes_partitions 2 1 (fun _ => 0) (by norm_num) (by norm_num)
    (fun _ => ⟨le_refl 0, by norm_num⟩)

end SimMethods
